import Mathlib

/-!
Shallow embedding of `src/dd.py`, a duplicate-directory manager.

The pipeline under verification: for each configured root directory, list
its immediate subdirectories, compute a canonical key per subdirectory
(`get_canonical_key`, preferring an IMDB-style identifier found in `*.nfo`
sidecar files over a name-based canonicalization), group subdirectories by
key (`defaultdict(list)` insertion), and inside every group of size at
least two pick the member with the strictly highest pattern score as
survivor and report / dry-run-report / delete the rest.

Modelling conventions:
* A sidecar file is a `name`, a `content` and a `readable` flag; an
  unreadable file stands for a file whose `read_text` raises (the source
  catches the exception, logs and continues).
* Python dictionaries keyed by distinct values are insertion-ordered
  association lists; `defaultdict(list)` appends to the entry of an
  existing key and adds a fresh entry at the end otherwise (`addToGroup`).
  The score-pattern dict is keyed by the compiled regex, which for a fixed
  flag set is determined by the pattern string (`re.compile` caching), so
  `dictInsert` keys on the pattern string.
* `re.search` with `re.IGNORECASE` on the literal patterns the
  configuration carries is case-insensitive substring search (`searchCI`);
  the regex `(tt\d{7,8})` is embedded exactly as leftmost match of `tt`
  followed by greedily seven-or-eight digits (`ttSearch`).
* Python's stable `sorted` by a key is embedded as a stable insertion
  sort by the same key (`sortByName`, `sortKeys`); a stable sort by a key
  is unique, so the embedded output equals the source's.
* Logging is observational: each branch of the per-member loop is recorded
  as an `Action`; filesystem mutation happens only on a successful
  `shutil.rmtree`, recorded as `Action.deleted`.
-/

namespace DD

/-- One sidecar file inside a directory: its filename, its text content and
whether reading it succeeds (`read_text` in the source may raise; the
exception is caught and the file skipped). -/
structure NfoFile where
  name : String
  content : String
  readable : Bool
deriving DecidableEq, Repr

/-- A directory entry: its basename and its immediate child files. -/
structure DirEntry where
  name : String
  files : List NfoFile
deriving DecidableEq, Repr

/-- ASCII lowercasing of one character, the effect of Python's `.lower()`
and of `re.IGNORECASE` on the ASCII names this tool handles. -/
def lowerChar (c : Char) : Char :=
  if 'A' ≤ c && c ≤ 'Z' then Char.ofNat (c.toNat + 32) else c

/-- Lowercasing of a character list. -/
def lowerList (s : List Char) : List Char := s.map lowerChar

/-- Lexicographic code-point comparison of character lists, the order
Python uses to compare strings. -/
def ltCharList : List Char → List Char → Bool
  | [], [] => false
  | [], _ :: _ => true
  | _ :: _, [] => false
  | a :: as, b :: bs => if a < b then true else if b < a then false else ltCharList as bs

/-- Longest digit run at the head of a character list (the greedy `\d{7,8}`
reads from such a run). -/
def takeDigits : List Char → List Char
  | [] => []
  | c :: cs => if c.isDigit then c :: takeDigits cs else []

/-- Embedding of `re.search(r"(tt\d{7,8})", content)`: leftmost position
where the literal `tt` is followed by at least seven digits wins; the
greedy quantifier takes eight digits when available, else seven. Returns
the matched identifier. -/
def ttSearch : List Char → Option String
  | [] => none
  | c :: cs =>
    match c, cs with
    | 't', 't' :: rest =>
      let ds := takeDigits rest
      if 7 ≤ ds.length then some (String.mk ('t' :: 't' :: ds.take 8))
      else ttSearch cs
    | _, _ => ttSearch cs

/-- The identifier a single sidecar file yields: `none` when the file is
unreadable (the source logs a warning and moves on) or when its content
has no `tt\d{7,8}` match. -/
def fileId (f : NfoFile) : Option String :=
  if f.readable then ttSearch f.content.data else none

/-- Whether `pat` occurs at the head of `s`. -/
def startsList : List Char → List Char → Bool
  | [], _ => true
  | _ :: _, [] => false
  | p :: ps, c :: cs => p = c && startsList ps cs

/-- Whether `pat` occurs anywhere in `s`. -/
def containsSub (pat : List Char) : List Char → Bool
  | [] => startsList pat []
  | c :: cs => startsList pat (c :: cs) || containsSub pat (cs)

/-- Whether a filename matches the glob `*.nfo` (its reversal starts with
the reversed suffix). -/
def endsNfo (name : String) : Bool :=
  startsList ['o', 'f', 'n', '.'] name.data.reverse

/-- Embedding of `get_imdb_id_from_directory` (src/dd.py:59-71): iterate
the files matching `*.nfo` in listing order, return the first identifier
found; `None` when no readable `.nfo` file matches. -/
def get_imdb_id_from_directory (files : List NfoFile) : Option String :=
  ((files.filter (fun f => endsNfo f.name)).filterMap fileId).head?

/-- Separator characters collapsed by the name parser. -/
def isSep (c : Char) : Bool :=
  c = '.' || c = ' ' || c = '_' || c = '-' || c = '(' || c = ')' || c = '[' || c = ']'

/-- Split a character list at separator characters; `cur` is the piece
being accumulated, in reverse. Empty pieces are produced between adjacent
separators and filtered out by `tokenize`. -/
def splitSeps (cur : List Char) : List Char → List (List Char)
  | [] => [cur.reverse]
  | c :: cs => if isSep c then cur.reverse :: splitSeps [] cs else splitSeps (c :: cur) cs

/-- The nonempty separator-delimited tokens of a name. -/
def tokenize (s : String) : List (List Char) :=
  (splitSeps [] s.data).filter (fun t => t ≠ [])

/-- A four-digit year token. -/
def isYearToken (t : List Char) : Bool :=
  t.length = 4 && t.all Char.isDigit

/-- Tokens before the first year token, together with that year token. -/
def splitAtYear : List (List Char) → Option (List (List Char) × List Char)
  | [] => none
  | t :: ts =>
    if isYearToken t then some ([], t)
    else
      match splitAtYear ts with
      | some pre => some (t :: pre.1, pre.2)
      | none => none

/-- Join tokens with single spaces. -/
def joinSpaces : List (List Char) → List Char
  | [] => []
  | [t] => t
  | t :: ts => t ++ ' ' :: joinSpaces ts

/-- Modelled from the spec: the title/year parse that the source delegates
to the external `guessit` library (not part of this repository). Spec 4.1
step 2: extract a leading title substring followed by a 4-digit year
token, collapsing separator punctuation to spaces and trimming; when no
year token is present the whole name is the title. -/
def guessTitleYear (name : String) : List Char × Option (List Char) :=
  match splitAtYear (tokenize name) with
  | some pre => (joinSpaces pre.1, some pre.2)
  | none => (name.data, none)

/-- Embedding of `canonicalize_name` (src/dd.py:73-80): lowercase the
parsed title and append the year when one was found. -/
def canonicalize_name (name : String) : String :=
  match guessTitleYear name with
  | (title, some y) => String.mk (lowerList title ++ ' ' :: y)
  | (title, none) => String.mk (lowerList title)

/-- Embedding of `get_canonical_key` (src/dd.py:82-88): prefer the sidecar
identifier, prefixed with `imdb:`; otherwise canonicalize the basename. -/
def get_canonical_key (d : DirEntry) : String :=
  match get_imdb_id_from_directory d.files with
  | some id => "imdb:" ++ id
  | none => canonicalize_name d.name

/-- One configured scoring rule: a pattern string and its weight. -/
structure ScoreRule where
  pattern : String
  score : Int
deriving DecidableEq, Repr

/-- Embedding of a compiled `re.IGNORECASE` literal pattern's `search`:
case-insensitive occurrence of the pattern anywhere in the name. -/
def searchCI (pattern name : String) : Bool :=
  containsSub (lowerList pattern.data) (lowerList name.data)

/-- Insertion into an insertion-ordered dictionary: overwrite the value of
an existing key, otherwise append a fresh entry. -/
def dictInsert (m : List (String × Int)) (k : String) (v : Int) : List (String × Int) :=
  if m.any (fun p => p.1 = k) then m.map (fun p => if p.1 = k then (k, v) else p)
  else m ++ [(k, v)]

/-- Embedding of `compile_score_patterns` (src/dd.py:46-50): build the
pattern-to-weight dictionary, one entry per compiled pattern. -/
def compile_score_patterns (patterns : List ScoreRule) : List (String × Int) :=
  patterns.foldl (fun m r => dictInsert m r.pattern r.score) []

/-- Embedding of `calculate_score` (src/dd.py:52-57): start at zero and add
the weight of every pattern that matches the directory name. -/
def calculate_score (dir_name : String) (compiled : List (String × Int)) : Int :=
  compiled.foldl (fun score p => if searchCI p.1 dir_name then score + p.2 else score) 0

/-- One `defaultdict(list)` append: extend the member list of an existing
key or create the key at the end of the dictionary. -/
def addToGroup (m : List (String × List DirEntry)) (k : String) (d : DirEntry) :
    List (String × List DirEntry) :=
  match m with
  | [] => [(k, [d])]
  | kg :: rest => if kg.1 = k then (kg.1, kg.2 ++ [d]) :: rest else kg :: addToGroup rest k d

/-- Embedding of the grouping pass (src/dd.py:94-101): every subdirectory
is appended to the member list of its canonical key. -/
def group_dirs (subdirs : List DirEntry) : List (String × List DirEntry) :=
  subdirs.foldl (fun m d => addToGroup m (get_canonical_key d) d) []

/-- One observation emitted for a group member, mirroring the log lines of
`process_base_dir`: `duplicate` (report-only), `wouldDelete` (dry-run),
`deleted` (successful removal), `deleteFailed` (removal raised, error
logged), `retained` (the survivor). -/
inductive Action where
  | duplicate (dir : String) (score : Int)
  | wouldDelete (dir : String) (score : Int)
  | deleted (dir : String) (score : Int)
  | deleteFailed (dir : String)
  | retained (dir : String) (score : Int)
deriving DecidableEq, Repr

/-- The directory name an action is about. -/
def actName : Action → String
  | .duplicate d _ => d
  | .wouldDelete d _ => d
  | .deleted d _ => d
  | .deleteFailed d => d
  | .retained d _ => d

/-- Whether an action is the survivor observation. -/
def isRetained : Action → Bool
  | .retained _ _ => true
  | _ => false

/-- Whether an action is a dry-run observation. -/
def isWouldDelete : Action → Bool
  | .wouldDelete _ _ => true
  | _ => false

/-- Whether an action is a plain report-only duplicate observation. -/
def isDuplicateAct : Action → Bool
  | .duplicate _ _ => true
  | _ => false

/-- Embedding of the survivor scan (src/dd.py:109-117): `max_score` starts
below every integer, so the first member always installs itself; afterwards
only a strictly greater score replaces the current best. The scan runs
over the group in its original (insertion) order. -/
def scanBest (f : DirEntry → Int) (group : List DirEntry) : Option (DirEntry × Int) :=
  group.foldl (fun acc d =>
    match acc with
    | none => some (d, f d)
    | some bm => if bm.2 < f d then some (d, f d) else some bm) none

/-- Strict comparison of lowercase basenames, the sort key of
`sorted(group, key=lambda d: d.name.lower())`. -/
def lowerLt (a b : DirEntry) : Bool := ltCharList (lowerList a.name.data) (lowerList b.name.data)

/-- Stable insertion of one entry into a list sorted by lowercase name:
the entry goes before the first position whose key is not smaller. -/
def insertByName (d : DirEntry) : List DirEntry → List DirEntry
  | [] => [d]
  | e :: es => if lowerLt e d then e :: insertByName d es else d :: e :: es

/-- Stable sort by lowercase basename (the output of Python's stable
`sorted` with that key). -/
def sortByName (l : List DirEntry) : List DirEntry := l.foldr insertByName []

/-- The action the per-member policy branch (src/dd.py:121-142) emits for
one non-survivor: dry-run reporting when both flags are set, actual
removal (successful or failed) under plain delete, report-only
otherwise. `deleteOk` tells whether `shutil.rmtree` succeeds on a path. -/
def memberAction (delete dryRun : Bool) (deleteOk : String → Bool)
    (d : DirEntry) (sc : Int) : Action :=
  if delete then
    if dryRun then .wouldDelete d.name sc
    else if deleteOk d.name then .deleted d.name sc
    else .deleteFailed d.name
  else .duplicate d.name sc

/-- Embedding of the per-group body of `process_base_dir`
(src/dd.py:105-148): groups of size at most one are skipped; otherwise the
survivor is found by `scanBest` over the original order, the group is then
sorted by lowercase name, every non-survivor emits one action and bumps
the duplicate counter, and one `retained` observation closes the group. -/
def process_group (delete dryRun : Bool) (deleteOk : String → Bool)
    (compiled : List (String × Int)) (group : List DirEntry) : List Action × Nat :=
  if 1 < group.length then
    match scanBest (fun d => calculate_score d.name compiled) group with
    | some bm =>
      let nonSurv := (sortByName group).filter (fun d => d ≠ bm.1)
      (nonSurv.map
          (fun d => memberAction delete dryRun deleteOk d (calculate_score d.name compiled))
        ++ [Action.retained bm.1.name bm.2], nonSurv.length)
    | none => ([], 0)
  else ([], 0)

/-- A configured root: whether it exists on disk and its immediate
subdirectories. -/
structure RootDir where
  present : Bool
  subdirs : List DirEntry
deriving Repr

/-- Stable insertion of one key into a sorted key list. -/
def insertKey (k : String) : List String → List String
  | [] => [k]
  | e :: es => if ltCharList e.data k.data then e :: insertKey k es else k :: e :: es

/-- The sorted traversal order of the group dictionary's keys
(`sorted(grouped_dirs.keys())`). -/
def sortKeys (l : List String) : List String := l.foldr insertKey []

/-- Dictionary lookup of a group by key. -/
def lookupGroup (m : List (String × List DirEntry)) (k : String) : List DirEntry :=
  match m.find? (fun kg => kg.1 = k) with
  | some kg => kg.2
  | none => []

/-- Embedding of `process_base_dir` (src/dd.py:90-148): a missing root
yields zero counters and no observation; otherwise group the
subdirectories, walk the keys in sorted order, process every group, and
return the observations plus `(processed, duplicates)` counters. -/
def process_base_dir (delete dryRun : Bool) (deleteOk : String → Bool)
    (compiled : List (String × Int)) (root : RootDir) : List Action × Nat × Nat :=
  if root.present then
    let groups := group_dirs root.subdirs
    let keys := sortKeys (groups.map (fun kg => kg.1))
    let per := keys.map (fun k => process_group delete dryRun deleteOk compiled (lookupGroup groups k))
    ((per.map (fun r => r.1)).flatten, root.subdirs.length, (per.map (fun r => r.2)).sum)
  else ([], 0, 0)

/-- One iteration of the loop of `main` (src/dd.py:170-173): process one
root and add its observations and counters to the running totals. -/
def runStep (delete dryRun : Bool) (deleteOk : String → Bool)
    (compiled : List (String × Int)) (acc : List Action × Nat × Nat) (root : RootDir) :
    List Action × Nat × Nat :=
  let r := process_base_dir delete dryRun deleteOk compiled root
  (acc.1 ++ r.1, acc.2.1 + r.2.1, acc.2.2 + r.2.2)

/-- Embedding of the loop of `main` (src/dd.py:170-173): process each root
in turn, concatenating observations and summing both counters. -/
def runAll (delete dryRun : Bool) (deleteOk : String → Bool)
    (compiled : List (String × Int)) (roots : List RootDir) : List Action × Nat × Nat :=
  roots.foldl (runStep delete dryRun deleteOk compiled) ([], 0, 0)

/-- The directories a list of observations actually removed from disk
(only successful `shutil.rmtree` calls mutate the filesystem). -/
def deletedDirs (acts : List Action) : List String :=
  acts.filterMap (fun a => match a with | .deleted d _ => some d | _ => none)

/-- The directory set left on disk after a run: everything not
successfully deleted. -/
def applyDeletions (fs : List String) (acts : List Action) : List String :=
  fs.filter (fun d => !((deletedDirs acts).contains d))

/-- The survivor selection as claim C1 words it: first sort the group by
lowercase basename, then take the first member to reach the maximum during
a left-to-right scan. (The source scans the unsorted group.) -/
def claimedSurvivor (compiled : List (String × Int)) (group : List DirEntry) :
    Option (DirEntry × Int) :=
  scanBest (fun d => calculate_score d.name compiled) (sortByName group)

/-- All members stored in a group dictionary, in dictionary order. -/
def groupsFlat (m : List (String × List DirEntry)) : List DirEntry :=
  (m.map (fun kg => kg.2)).flatten

/-! ## Helper lemmas -/

theorem insertByName_perm (d : DirEntry) (l : List DirEntry) :
    (insertByName d l).Perm (d :: l) := by
  induction l with
  | nil => exact List.Perm.refl _
  | cons e es ih =>
    simp only [insertByName]
    by_cases h : lowerLt e d
    · simp only [h, if_true]
      exact (ih.cons e).trans (List.Perm.swap d e es)
    · simp [h]

theorem sortByName_perm (l : List DirEntry) : (sortByName l).Perm l := by
  induction l with
  | nil => exact List.Perm.refl _
  | cons x xs ih =>
    simp only [sortByName, List.foldr_cons]
    exact (insertByName_perm x _).trans (ih.cons x)

theorem insertKey_perm (k : String) (l : List String) :
    (insertKey k l).Perm (k :: l) := by
  induction l with
  | nil => exact List.Perm.refl _
  | cons e es ih =>
    simp only [insertKey]
    by_cases h : ltCharList e.data k.data
    · simp only [h, if_true]
      exact (ih.cons e).trans (List.Perm.swap k e es)
    · simp [h]

theorem sortKeys_perm (l : List String) : (sortKeys l).Perm l := by
  induction l with
  | nil => exact List.Perm.refl _
  | cons x xs ih =>
    simp only [sortKeys, List.foldr_cons]
    exact (insertKey_perm x _).trans (ih.cons x)

/-- Characterization of the survivor scan, running with an installed best
member: the result is the first member of the remaining list to strictly
exceed the running maximum, and no member beats it. -/
theorem scanBest_foldl_spec (f : DirEntry → Int) :
    ∀ (l : List DirEntry) (b : DirEntry),
      ∃ b2 l1 l2,
        List.foldl
          (fun acc d =>
            match acc with
            | none => some (d, f d)
            | some bm => if bm.2 < f d then some (d, f d) else some bm)
          (some (b, f b)) l = some (b2, f b2) ∧
        b :: l = l1 ++ b2 :: l2 ∧ (∀ d ∈ l1, f d < f b2) ∧ (∀ d ∈ b :: l, f d ≤ f b2)
  | [], b => ⟨b, [], [], rfl, rfl, by simp, by simp⟩
  | d :: ds, b => by
    by_cases h : f b < f d
    · obtain ⟨b2, l1, l2, h1, h2, h3, h4⟩ := scanBest_foldl_spec f ds d
      refine ⟨b2, b :: l1, l2, ?_, ?_, ?_, ?_⟩
      · rw [List.foldl_cons]
        simpa [h] using h1
      · simpa using h2
      · intro e he
        rcases List.mem_cons.mp he with rfl | he2
        · exact lt_of_lt_of_le h (h4 d (by simp))
        · exact h3 e he2
      · intro e he
        rcases List.mem_cons.mp he with rfl | he2
        · exact le_of_lt (lt_of_lt_of_le h (h4 d (by simp)))
        · exact h4 e he2
    · obtain ⟨b2, l1, l2, h1, h2, h3, h4⟩ := scanBest_foldl_spec f ds b
      have hdb : f d ≤ f b := le_of_not_lt h
      cases l1 with
      | nil =>
        obtain ⟨hb2, hl2⟩ : b = b2 ∧ ds = l2 := by simpa using h2
        refine ⟨b, [], d :: ds, ?_, rfl, by simp, ?_⟩
        · rw [List.foldl_cons]
          rw [← hb2] at h1
          simpa [h] using h1
        · intro e he
          have hfb2 : f b2 = f b := by rw [← hb2]
          rcases List.mem_cons.mp he with rfl | he2
          · exact le_refl _
          · rcases List.mem_cons.mp he2 with rfl | he3
            · exact hdb
            · have := h4 e (by simp [he3])
              rwa [hfb2] at this
      | cons a l1t =>
        obtain ⟨hba, hds⟩ : b = a ∧ ds = l1t ++ b2 :: l2 := by simpa using h2
        have hfb : f b < f b2 := by
          rw [hba]
          exact h3 a (List.mem_cons_self a l1t)
        refine ⟨b2, b :: d :: l1t, l2, ?_, ?_, ?_, ?_⟩
        · rw [List.foldl_cons]
          simpa [h] using h1
        · simp [hds]
        · intro e he
          rcases List.mem_cons.mp he with rfl | he2
          · exact hfb
          · rcases List.mem_cons.mp he2 with rfl | he3
            · exact lt_of_le_of_lt hdb hfb
            · exact h3 e (by simp [he3])
        · intro e he
          rcases List.mem_cons.mp he with rfl | he2
          · exact h4 e (by simp)
          · rcases List.mem_cons.mp he2 with rfl | he3
            · exact le_trans hdb (h4 b (by simp))
            · exact h4 e (by simp [he3])

/-- The survivor scan on a nonempty group finds the first member to reach
the overall maximum score, in the group's original order. -/
theorem scanBest_spec (f : DirEntry → Int) (group : List DirEntry)
    (h : group ≠ []) :
    ∃ b l1 l2,
      scanBest f group = some (b, f b) ∧
      group = l1 ++ b :: l2 ∧ (∀ d ∈ l1, f d < f b) ∧ (∀ d ∈ group, f d ≤ f b) := by
  match group, h with
  | g :: gs, _ =>
    obtain ⟨b2, l1, l2, h1, h2, h3, h4⟩ := scanBest_foldl_spec f gs g
    exact ⟨b2, l1, l2, by simpa [scanBest] using h1, h2, h3, h4⟩

/-- Unfolding of `process_group` on a group of size at least two: the
survivor comes from `scanBest` over the original order, and the output is
one action per non-survivor in sorted order followed by the `retained`
observation. -/
theorem process_group_eq (delete dryRun : Bool) (deleteOk : String → Bool)
    (compiled : List (String × Int)) (group : List DirEntry)
    (h : 1 < group.length) :
    ∃ b l1 l2,
      scanBest (fun d => calculate_score d.name compiled) group
        = some (b, calculate_score b.name compiled) ∧
      group = l1 ++ b :: l2 ∧
      (∀ d ∈ l1, calculate_score d.name compiled < calculate_score b.name compiled) ∧
      (∀ d ∈ group, calculate_score d.name compiled ≤ calculate_score b.name compiled) ∧
      process_group delete dryRun deleteOk compiled group =
        (((sortByName group).filter (fun d => d ≠ b)).map
            (fun d => memberAction delete dryRun deleteOk d (calculate_score d.name compiled))
          ++ [Action.retained b.name (calculate_score b.name compiled)],
         ((sortByName group).filter (fun d => d ≠ b)).length) := by
  have hne : group ≠ [] := by
    intro hg
    rw [hg] at h
    simp at h
  obtain ⟨b, l1, l2, h1, h2, h3, h4⟩ :=
    scanBest_spec (fun d => calculate_score d.name compiled) group hne
  refine ⟨b, l1, l2, h1, h2, h3, h4, ?_⟩
  simp only [process_group, h, if_true, h1]

theorem getLast?_append_singleton (l : List Action) (a : Action) :
    (l ++ [a]).getLast? = some a := by
  induction l with
  | nil => rfl
  | cons x xs ih =>
    rw [List.cons_append, List.getLast?_cons, ih]
    simp

/-! ## Claim theorems -/

/-- C1, counterexample to the claim as stated: for the group enumerated in
the order `["b", "a"]` with an empty rule set (all scores `0`, so the top
score is tied), the source retains `"b"`, the first member in the group's
original enumeration order, whereas the first top-scoring member in the
order sorted by lowercase basename is `"a"`. The effective tie-break is
therefore not alphabetical-first. -/
theorem c1_counterexample :
    (process_group false false (fun _ => true) []
        [⟨"b", []⟩, ⟨"a", []⟩]).1.getLast? = some (.retained "b" 0) ∧
    claimedSurvivor [] [⟨"b", []⟩, ⟨"a", []⟩] = some (⟨"a", []⟩, 0) ∧
    ("b" : String) ≠ "a" := by decide

/-- C1 (amended): for every group of size at least two, the survivor (the
member named by the final `retained` observation) is the first member to
attain the maximum score in the group's **original enumeration order** —
the sort by lowercase basename happens after the survivor scan and only
orders the emitted actions. Every earlier member scores strictly lower and
no member scores higher. -/
theorem c1_survivor_first_max_in_original_order
    (delete dryRun : Bool) (deleteOk : String → Bool)
    (compiled : List (String × Int)) (group : List DirEntry)
    (h : 2 ≤ group.length) :
    ∃ b l1 l2,
      group = l1 ++ b :: l2 ∧
      (∀ d ∈ l1, calculate_score d.name compiled < calculate_score b.name compiled) ∧
      (∀ d ∈ group, calculate_score d.name compiled ≤ calculate_score b.name compiled) ∧
      (process_group delete dryRun deleteOk compiled group).1.getLast?
        = some (.retained b.name (calculate_score b.name compiled)) := by
  obtain ⟨b, l1, l2, hscan, hdec, hlt, hle, heq⟩ :=
    process_group_eq delete dryRun deleteOk compiled group h
  exact ⟨b, l1, l2, hdec, hlt, hle, by rw [heq]; exact getLast?_append_singleton _ _⟩

/-- C1 witness: the amended theorem applied to the concrete two-member
group of the counterexample. -/
theorem c1_witness :
    2 ≤ ([⟨"b", []⟩, ⟨"a", []⟩] : List DirEntry).length ∧
    ∃ b l1 l2,
      ([⟨"b", []⟩, ⟨"a", []⟩] : List DirEntry) = l1 ++ b :: l2 ∧
      (∀ d ∈ l1, calculate_score d.name [] < calculate_score b.name []) ∧
      (∀ d ∈ ([⟨"b", []⟩, ⟨"a", []⟩] : List DirEntry),
        calculate_score d.name [] ≤ calculate_score b.name []) ∧
      (process_group false false (fun _ => true) [] [⟨"b", []⟩, ⟨"a", []⟩]).1.getLast?
        = some (.retained b.name (calculate_score b.name [])) :=
  ⟨by decide,
   c1_survivor_first_max_in_original_order false false (fun _ => true) []
     [⟨"b", []⟩, ⟨"a", []⟩] (by decide)⟩

/-- C9: two directories `"Movie.Title.2020.BluRay"` and
`"Movie Title (2020) WEBRip"` with no sidecar files and the rule set
`{"BluRay": 10, "WEBRip": -5}` canonicalize to the same key
`"movie title 2020"`, score `10` and `-5`, the BluRay directory is
retained, and exactly one duplicate action is emitted, for the WEBRip
directory. -/
theorem c9_scenario_bluray_webrip :
    get_canonical_key ⟨"Movie.Title.2020.BluRay", []⟩ = "movie title 2020" ∧
    get_canonical_key ⟨"Movie Title (2020) WEBRip", []⟩ = "movie title 2020" ∧
    calculate_score "Movie.Title.2020.BluRay"
      (compile_score_patterns [⟨"BluRay", 10⟩, ⟨"WEBRip", -5⟩]) = 10 ∧
    calculate_score "Movie Title (2020) WEBRip"
      (compile_score_patterns [⟨"BluRay", 10⟩, ⟨"WEBRip", -5⟩]) = -5 ∧
    process_group false false (fun _ => true)
      (compile_score_patterns [⟨"BluRay", 10⟩, ⟨"WEBRip", -5⟩])
      [⟨"Movie.Title.2020.BluRay", []⟩, ⟨"Movie Title (2020) WEBRip", []⟩]
      = ([.duplicate "Movie Title (2020) WEBRip" (-5),
          .retained "Movie.Title.2020.BluRay" 10], 1) := by
  decide

/-- C3, counterexample to the claim as stated: a directory with a sidecar
whose content holds the identifier `tt1234567` gets the canonical key
`"imdb:tt1234567"`, not `"id:tt1234567"` as the claim says; moreover the
identifier pattern is literally `tt` followed by digits, so a token with a
different two-letter prefix (`ab1234567`) yields no identifier at all. -/
theorem c3_counterexample :
    get_canonical_key ⟨"Some.Dir.Name", [⟨"movie.nfo", "plot: tt1234567", true⟩]⟩
      = "imdb:tt1234567" ∧
    get_canonical_key ⟨"Some.Dir.Name", [⟨"movie.nfo", "plot: tt1234567", true⟩]⟩
      ≠ "id:tt1234567" ∧
    get_imdb_id_from_directory [⟨"movie.nfo", "plot: ab1234567", true⟩] = none := by
  decide

/-- C3 (amended): for every directory one of whose readable `.nfo` sidecar
files contains a token `tt` followed by 7-8 digits, the canonical key is
the string `"imdb:"` followed by the identifier extracted from such a
sidecar, independent of the directory's name. -/
theorem c3_sidecar_id_key (files : List NfoFile)
    (h : ∃ f ∈ files, endsNfo f.name = true ∧ f.readable = true ∧
      (ttSearch f.content.data).isSome = true) :
    ∃ id f, f ∈ files ∧ endsNfo f.name = true ∧ f.readable = true ∧
      ttSearch f.content.data = some id ∧
      ∀ name, get_canonical_key ⟨name, files⟩ = "imdb:" ++ id := by
  obtain ⟨f, hf, hnfo, hread, hsome⟩ := h
  obtain ⟨id0, hid0⟩ := Option.isSome_iff_exists.mp hsome
  have hfid : fileId f = some id0 := by simp [fileId, hread, hid0]
  have hmem : id0 ∈ (files.filter (fun g => endsNfo g.name)).filterMap fileId :=
    List.mem_filterMap.mpr ⟨f, List.mem_filter.mpr ⟨hf, hnfo⟩, hfid⟩
  cases hL : (files.filter (fun g => endsNfo g.name)).filterMap fileId with
  | nil =>
    rw [hL] at hmem
    simp at hmem
  | cons idh idt =>
    have hid : get_imdb_id_from_directory files = some idh := by
      simp [get_imdb_id_from_directory, hL]
    have hmemh : idh ∈ (files.filter (fun g => endsNfo g.name)).filterMap fileId := by
      rw [hL]
      simp
    obtain ⟨f0, hf0mem, hf0id⟩ := List.mem_filterMap.mp hmemh
    have hf0files := (List.mem_filter.mp hf0mem).1
    have hf0nfo := (List.mem_filter.mp hf0mem).2
    have hf0read : f0.readable = true := by
      cases hb : f0.readable with
      | false =>
        rw [fileId, hb] at hf0id
        simp at hf0id
      | true => rfl
    have hf0tt : ttSearch f0.content.data = some idh := by
      rw [fileId, hf0read] at hf0id
      simpa using hf0id
    refine ⟨idh, f0, hf0files, hf0nfo, hf0read, hf0tt, ?_⟩
    intro name
    simp [get_canonical_key, hid]

/-- C3 witness: the amended theorem applied to a directory holding one
readable sidecar `movie.nfo` whose content carries `tt1234567`. -/
theorem c3_witness :
    (∃ f ∈ [(⟨"movie.nfo", "plot: tt1234567", true⟩ : NfoFile)], endsNfo f.name = true ∧
      f.readable = true ∧ (ttSearch f.content.data).isSome = true) ∧
    ∃ id f, f ∈ [(⟨"movie.nfo", "plot: tt1234567", true⟩ : NfoFile)] ∧
      endsNfo f.name = true ∧ f.readable = true ∧
      ttSearch f.content.data = some id ∧
      ∀ name, get_canonical_key ⟨name, [⟨"movie.nfo", "plot: tt1234567", true⟩]⟩
        = "imdb:" ++ id :=
  ⟨⟨⟨"movie.nfo", "plot: tt1234567", true⟩, by decide⟩,
   c3_sidecar_id_key [⟨"movie.nfo", "plot: tt1234567", true⟩]
     ⟨⟨"movie.nfo", "plot: tt1234567", true⟩, by decide⟩⟩

/-- C10: the identifier search consults only files matching `*.nfo`
(inserting any other file anywhere changes nothing), skips an unreadable
file without aborting (inserting one changes nothing), returns the first
`tt`+7-8-digit match in file-listing order (a readable `.nfo` match wins as
soon as every earlier `.nfo` file yields nothing), and when no `.nfo` file
yields a match the canonical key falls back to name-based
canonicalization. -/
theorem c10_id_search_scope_first_match_fallback :
    (∀ (l1 l2 : List NfoFile) (f : NfoFile), endsNfo f.name = false →
      get_imdb_id_from_directory (l1 ++ f :: l2) = get_imdb_id_from_directory (l1 ++ l2)) ∧
    (∀ (l1 l2 : List NfoFile) (f : NfoFile), f.readable = false →
      get_imdb_id_from_directory (l1 ++ f :: l2) = get_imdb_id_from_directory (l1 ++ l2)) ∧
    (∀ (l1 l2 : List NfoFile) (f : NfoFile) (id : String),
      (∀ g ∈ l1, endsNfo g.name = true → fileId g = none) →
      endsNfo f.name = true → f.readable = true → ttSearch f.content.data = some id →
      get_imdb_id_from_directory (l1 ++ f :: l2) = some id) ∧
    (∀ (name : String) (files : List NfoFile), get_imdb_id_from_directory files = none →
      get_canonical_key ⟨name, files⟩ = canonicalize_name name) := by
  refine ⟨?_, ?_, ?_, ?_⟩
  · intro l1 l2 f hf
    simp [get_imdb_id_from_directory, List.filter_append, List.filter_cons, hf]
  · intro l1 l2 f hf
    by_cases hnfo : endsNfo f.name = true
    · have hfid : fileId f = none := by simp [fileId, hf]
      simp [get_imdb_id_from_directory, List.filter_append, List.filter_cons, hnfo,
        List.filterMap_append, hfid]
    · simp [get_imdb_id_from_directory, List.filter_append, List.filter_cons, hnfo]
  · intro l1 l2 f id hl1 hnfo hread htt
    have hfid : fileId f = some id := by simp [fileId, hread, htt]
    have hl1nil : (l1.filter (fun g => endsNfo g.name)).filterMap fileId = [] := by
      rw [List.filterMap_eq_nil_iff]
      intro g hg
      exact hl1 g (List.mem_filter.mp hg).1 (List.mem_filter.mp hg).2
    simp [get_imdb_id_from_directory, List.filter_append, List.filter_cons, hnfo,
      List.filterMap_append, hl1nil, hfid]
  · intro name files hnone
    simp [get_canonical_key, hnone]

/-- C10 witness: with a non-`.nfo` file, an unreadable `.nfo` file and two
readable `.nfo` files each containing an identifier, the first readable
`.nfo` match wins and, with no match at all, the key falls back to the
canonicalized name. -/
theorem c10_witness :
    get_imdb_id_from_directory
      [⟨"readme.txt", "tt9999999", true⟩, ⟨"broken.nfo", "tt8888888", false⟩,
       ⟨"a.nfo", "x tt1234567", true⟩, ⟨"b.nfo", "tt7654321", true⟩]
      = some "tt1234567" ∧
    get_canonical_key ⟨"Movie.Title.2020.BluRay", [⟨"empty.nfo", "no ids here", true⟩]⟩
      = canonicalize_name "Movie.Title.2020.BluRay" := by
  constructor
  · exact (c10_id_search_scope_first_match_fallback.2.2.1
      [⟨"readme.txt", "tt9999999", true⟩, ⟨"broken.nfo", "tt8888888", false⟩]
      [⟨"b.nfo", "tt7654321", true⟩] ⟨"a.nfo", "x tt1234567", true⟩ "tt1234567"
      (by decide) (by decide) (by decide) (by decide))
  · exact (c10_id_search_scope_first_match_fallback.2.2.2
      "Movie.Title.2020.BluRay" [⟨"empty.nfo", "no ids here", true⟩] (by decide))

theorem actName_memberAction (delete dryRun : Bool) (deleteOk : String → Bool)
    (d : DirEntry) (sc : Int) :
    actName (memberAction delete dryRun deleteOk d sc) = d.name := by
  rw [memberAction]
  by_cases h1 : delete = true
  · rw [if_pos h1]
    by_cases h2 : dryRun = true
    · rw [if_pos h2]
      rfl
    · rw [if_neg h2]
      by_cases h3 : deleteOk d.name = true
      · rw [if_pos h3]
        rfl
      · rw [if_neg h3]
        rfl
  · rw [if_neg h1]
    rfl

theorem isRetained_memberAction (delete dryRun : Bool) (deleteOk : String → Bool)
    (d : DirEntry) (sc : Int) :
    isRetained (memberAction delete dryRun deleteOk d sc) = false := by
  rw [memberAction]
  by_cases h1 : delete = true
  · rw [if_pos h1]
    by_cases h2 : dryRun = true
    · rw [if_pos h2]
      rfl
    · rw [if_neg h2]
      by_cases h3 : deleteOk d.name = true
      · rw [if_pos h3]
        rfl
      · rw [if_neg h3]
        rfl
  · rw [if_neg h1]
    rfl

/-- Structure of a processed group of size at least two, for a group of
pairwise-distinct entries: the survivor is scanned from the original
order, each other member appears exactly once in the sorted action list,
and the duplicate count is the group size minus one. -/
theorem process_group_struct (delete dryRun : Bool) (deleteOk : String → Bool)
    (compiled : List (String × Int)) (group : List DirEntry)
    (hn : group.Nodup) (h2 : 2 ≤ group.length) :
    ∃ b,
      scanBest (fun d => calculate_score d.name compiled) group
        = some (b, calculate_score b.name compiled) ∧
      b ∈ group ∧
      (b :: (sortByName group).filter (fun d => d ≠ b)).Perm group ∧
      process_group delete dryRun deleteOk compiled group
        = (((sortByName group).filter (fun d => d ≠ b)).map
             (fun d => memberAction delete dryRun deleteOk d (calculate_score d.name compiled))
           ++ [Action.retained b.name (calculate_score b.name compiled)],
           ((sortByName group).filter (fun d => d ≠ b)).length) ∧
      ((sortByName group).filter (fun d => d ≠ b)).length = group.length - 1 := by
  have h1 : 1 < group.length := h2
  obtain ⟨b, l1, l2, hscan, hdec, hlt, hle, heq⟩ :=
    process_group_eq delete dryRun deleteOk compiled group h1
  have hb : b ∈ group := by
    rw [hdec]
    exact List.mem_append_right _ (List.mem_cons_self _ _)
  have hsp : (sortByName group).Perm group := sortByName_perm group
  have hsn : (sortByName group).Nodup := (hsp.nodup_iff).mpr hn
  have hbs : b ∈ sortByName group := (hsp.mem_iff).mpr hb
  have hfe : (sortByName group).filter (fun d => d ≠ b) = (sortByName group).erase b := by
    rw [List.Nodup.erase_eq_filter hsn b]
    apply List.filter_congr
    intro x _
    by_cases hxb : x = b
    · simp [hxb]
    · simp [hxb]
  have hperm : (b :: (sortByName group).filter (fun d => d ≠ b)).Perm group := by
    rw [hfe]
    exact ((List.perm_cons_erase hbs).symm).trans hsp
  have hlen : ((sortByName group).filter (fun d => d ≠ b)).length = group.length - 1 := by
    rw [hfe, List.length_erase_of_mem hbs, hsp.length_eq]
  exact ⟨b, hscan, hb, hperm, heq, hlen⟩

/-- C5: a group of size one emits no action and counts no duplicate; a
group of size at least two (with pairwise-distinct member names) selects
exactly one survivor, emits exactly `size - 1` non-survivor actions (the
multiset of action subjects is exactly the multiset of member names, so
each non-survivor triggers exactly one action), emits exactly one
`retained` observation, naming the survivor, and counts `size - 1`
duplicates. -/
theorem c5_group_action_counts (delete dryRun : Bool) (deleteOk : String → Bool)
    (compiled : List (String × Int)) (group : List DirEntry)
    (hn : (group.map (fun d => d.name)).Nodup) :
    (group.length = 1 → process_group delete dryRun deleteOk compiled group = ([], 0)) ∧
    (2 ≤ group.length →
      ∃ b sc,
        scanBest (fun d => calculate_score d.name compiled) group = some (b, sc) ∧
        (process_group delete dryRun deleteOk compiled group).2 = group.length - 1 ∧
        (process_group delete dryRun deleteOk compiled group).1.length = group.length ∧
        (process_group delete dryRun deleteOk compiled group).1.filter isRetained
          = [Action.retained b.name sc] ∧
        ((process_group delete dryRun deleteOk compiled group).1.map actName).Perm
          (group.map (fun d => d.name))) := by
  constructor
  · intro h1
    have hno : ¬ (1 < group.length) := by omega
    simp [process_group, hno]
  · intro h2
    have hnd : group.Nodup := hn.of_map
    obtain ⟨b, hscan, hb, hperm, heq, hlen⟩ :=
      process_group_struct delete dryRun deleteOk compiled group hnd h2
    refine ⟨b, calculate_score b.name compiled, hscan, ?_, ?_, ?_, ?_⟩
    · rw [heq]
      exact hlen
    · rw [heq]
      simp only [List.length_append, List.length_map, List.length_cons,
        List.length_nil, hlen]
      omega
    · rw [heq]
      rw [List.filter_append]
      have hmap : (((sortByName group).filter (fun d => d ≠ b)).map
          (fun d => memberAction delete dryRun deleteOk d
            (calculate_score d.name compiled))).filter isRetained = [] := by
        rw [List.filter_eq_nil_iff]
        intro a ha
        obtain ⟨e, he, rfl⟩ := List.mem_map.mp ha
        simp [isRetained_memberAction]
      rw [hmap, List.nil_append]
      rfl
    · rw [heq]
      rw [List.map_append, List.map_map]
      have hnames : (actName ∘ fun d => memberAction delete dryRun deleteOk d
          (calculate_score d.name compiled)) = (fun d : DirEntry => d.name) := by
        funext e
        exact actName_memberAction delete dryRun deleteOk e _
      rw [hnames]
      have hstep : (((sortByName group).filter (fun d => d ≠ b)).map
            (fun d : DirEntry => d.name) ++ [Action.retained b.name
              (calculate_score b.name compiled)].map actName).Perm
          ((b :: (sortByName group).filter (fun d => d ≠ b)).map
            (fun d : DirEntry => d.name)) := by
        rw [List.map_cons]
        exact List.perm_append_comm
      exact hstep.trans (hperm.map (fun d : DirEntry => d.name))

/-- C5 witness: the theorem applied to a singleton group and to the
two-member BluRay/WEBRip group. -/
theorem c5_witness :
    (([⟨"Solo.Movie.2019", []⟩] : List DirEntry).map (fun d => d.name)).Nodup ∧
    process_group false false (fun _ => true) [] [⟨"Solo.Movie.2019", []⟩] = ([], 0) ∧
    (([⟨"b", []⟩, ⟨"a", []⟩] : List DirEntry).map (fun d => d.name)).Nodup ∧
    (∃ b sc,
      scanBest (fun d => calculate_score d.name []) [⟨"b", []⟩, ⟨"a", []⟩] = some (b, sc) ∧
      (process_group false false (fun _ => true) [] [⟨"b", []⟩, ⟨"a", []⟩]).2
        = ([⟨"b", []⟩, ⟨"a", []⟩] : List DirEntry).length - 1 ∧
      (process_group false false (fun _ => true) [] [⟨"b", []⟩, ⟨"a", []⟩]).1.length
        = ([⟨"b", []⟩, ⟨"a", []⟩] : List DirEntry).length ∧
      (process_group false false (fun _ => true) [] [⟨"b", []⟩, ⟨"a", []⟩]).1.filter isRetained
        = [Action.retained b.name sc] ∧
      ((process_group false false (fun _ => true) [] [⟨"b", []⟩, ⟨"a", []⟩]).1.map actName).Perm
        (([⟨"b", []⟩, ⟨"a", []⟩] : List DirEntry).map (fun d => d.name))) :=
  ⟨by decide,
   (c5_group_action_counts false false (fun _ => true) [] [⟨"Solo.Movie.2019", []⟩]
     (by decide)).1 (by decide),
   by decide,
   (c5_group_action_counts false false (fun _ => true) [] [⟨"b", []⟩, ⟨"a", []⟩]
     (by decide)).2 (by decide)⟩

/-- C6: under delete policy (delete set, dry-run clear), when removal of a
non-survivor fails, a failure observation is logged for it, the directory
is not among the deleted ones (it remains on disk), the duplicates counter
still counts every non-survivor including the failed one, and processing
continues: the group still ends with its `retained` observation. -/
theorem c6_failed_deletion (deleteOk : String → Bool)
    (compiled : List (String × Int)) (group : List DirEntry) (d : DirEntry)
    (hn : (group.map (fun e => e.name)).Nodup)
    (h2 : 2 ≤ group.length)
    (hd : d ∈ group)
    (hfail : deleteOk d.name = false)
    (hnb : ∀ b sc, scanBest (fun e => calculate_score e.name compiled) group
      = some (b, sc) → d ≠ b) :
    Action.deleteFailed d.name ∈ (process_group true false deleteOk compiled group).1 ∧
    d.name ∉ deletedDirs (process_group true false deleteOk compiled group).1 ∧
    (process_group true false deleteOk compiled group).2 = group.length - 1 ∧
    (∃ b sc, (process_group true false deleteOk compiled group).1.getLast?
      = some (Action.retained b sc)) := by
  have hnd : group.Nodup := hn.of_map
  obtain ⟨b, hscan, hb, hperm, heq, hlen⟩ :=
    process_group_struct true false deleteOk compiled group hnd h2
  have hdb : d ≠ b := hnb b _ hscan
  have hds : d ∈ sortByName group := ((sortByName_perm group).mem_iff).mpr hd
  have hdnon : d ∈ (sortByName group).filter (fun e => e ≠ b) := by
    rw [List.mem_filter]
    exact ⟨hds, by simp [hdb]⟩
  have hma : memberAction true false deleteOk d (calculate_score d.name compiled)
      = Action.deleteFailed d.name := by
    simp [memberAction, hfail]
  refine ⟨?_, ?_, ?_, ?_⟩
  · rw [heq]
    refine List.mem_append_left _ ?_
    exact List.mem_map.mpr ⟨d, hdnon, hma⟩
  · intro hmem
    rw [heq] at hmem
    obtain ⟨a, ha, hsome⟩ := List.mem_filterMap.mp hmem
    rcases List.mem_append.mp ha with hm | hr
    · obtain ⟨e, he, rfl⟩ := List.mem_map.mp hm
      have hegroup : e ∈ group := ((sortByName_perm group).mem_iff).mp
        (List.mem_filter.mp he).1
      by_cases hok : deleteOk e.name = true
      · have hae : memberAction true false deleteOk e (calculate_score e.name compiled)
            = Action.deleted e.name (calculate_score e.name compiled) := by
          simp [memberAction, hok]
        rw [hae] at hsome
        have hname : e.name = d.name := by simpa using hsome
        have hed : e = d := List.inj_on_of_nodup_map hn hegroup hd hname
        rw [hed] at hok
        rw [hfail] at hok
        exact Bool.false_ne_true hok
      · have hae : memberAction true false deleteOk e (calculate_score e.name compiled)
            = Action.deleteFailed e.name := by
          simp [memberAction, hok]
        rw [hae] at hsome
        simp at hsome
    · have har : a = Action.retained b.name (calculate_score b.name compiled) := by
        simpa using hr
      rw [har] at hsome
      simp at hsome
  · rw [heq]
    exact hlen
  · rw [heq]
    exact ⟨b.name, calculate_score b.name compiled, getLast?_append_singleton _ _⟩

/-- C6 witness: a two-member group where deletion always fails; the
lower-scoring member's removal fails, is observed as a failure, stays on
disk, and is still counted. -/
theorem c6_witness :
    Action.deleteFailed "loser" ∈ (process_group true false (fun _ => false)
      (compile_score_patterns [⟨"winner", 5⟩])
      [⟨"winner", []⟩, ⟨"loser", []⟩]).1 ∧
    "loser" ∉ deletedDirs (process_group true false (fun _ => false)
      (compile_score_patterns [⟨"winner", 5⟩])
      [⟨"winner", []⟩, ⟨"loser", []⟩]).1 ∧
    (process_group true false (fun _ => false)
      (compile_score_patterns [⟨"winner", 5⟩])
      [⟨"winner", []⟩, ⟨"loser", []⟩]).2
      = ([⟨"winner", []⟩, ⟨"loser", []⟩] : List DirEntry).length - 1 ∧
    (∃ b sc, (process_group true false (fun _ => false)
      (compile_score_patterns [⟨"winner", 5⟩])
      [⟨"winner", []⟩, ⟨"loser", []⟩]).1.getLast? = some (Action.retained b sc)) := by
  have heval : scanBest (fun e => calculate_score e.name
      (compile_score_patterns [⟨"winner", 5⟩])) [⟨"winner", []⟩, ⟨"loser", []⟩]
      = some (⟨"winner", []⟩, 5) := by decide
  refine c6_failed_deletion (fun _ => false) (compile_score_patterns [⟨"winner", 5⟩])
    [⟨"winner", []⟩, ⟨"loser", []⟩] ⟨"loser", []⟩
    (by decide) (by decide) (by decide) (by decide) ?_
  intro b sc h
  rw [heval] at h
  have h1 : (⟨"winner", []⟩ : DirEntry) = b := (Prod.ext_iff.mp (Option.some.inj h)).1
  rw [← h1]
  decide

theorem dictInsert_fresh (m : List (String × Int)) (k : String) (v : Int)
    (h : ∀ p ∈ m, p.1 ≠ k) : dictInsert m k v = m ++ [(k, v)] := by
  have hany : ¬ ((m.any fun p => p.1 = k) = true) := by
    rw [List.any_eq_true]
    rintro ⟨p, hp, hpk⟩
    exact h p hp (by simpa using hpk)
  simp [dictInsert, hany]

/-- With pairwise-distinct pattern strings (distinct compiled regexes,
hence distinct dictionary keys), compiling the rule list appends one fresh
dictionary entry per rule, in order. -/
theorem compile_score_patterns_eq_map :
    ∀ (rules : List ScoreRule) (acc : List (String × Int)),
      (rules.map (fun r => r.pattern)).Nodup →
      (∀ p ∈ acc, ∀ r ∈ rules, p.1 ≠ r.pattern) →
      rules.foldl (fun m r => dictInsert m r.pattern r.score) acc
        = acc ++ rules.map (fun r => (r.pattern, r.score))
  | [], acc, _, _ => by simp
  | r :: rs, acc, hnd, hdisj => by
    have hnd2 : (r.pattern :: rs.map (fun r => r.pattern)).Nodup := by simpa using hnd
    have hfresh : ∀ p ∈ acc, p.1 ≠ r.pattern := fun p hp => hdisj p hp r (by simp)
    rw [List.foldl_cons, dictInsert_fresh acc r.pattern r.score hfresh]
    rw [compile_score_patterns_eq_map rs (acc ++ [(r.pattern, r.score)]) hnd2.of_cons ?_]
    · simp
    · intro p hp r2 hr2
      rcases List.mem_append.mp hp with hpa | hpr
      · exact hdisj p hpa r2 (by simp [hr2])
      · have hpp : p = (r.pattern, r.score) := by simpa using hpr
        rw [hpp]
        intro hceq
        have hceq2 : r.pattern = r2.pattern := hceq
        refine (List.nodup_cons.mp hnd2).1 ?_
        rw [hceq2]
        exact List.mem_map.mpr ⟨r2, hr2, rfl⟩

/-- The score accumulation loop adds, to its starting value, the weight of
every matching pattern — no short-circuiting, every entry contributes. -/
theorem score_foldl_eq_sum (dir_name : String) :
    ∀ (compiled : List (String × Int)) (init : Int),
      compiled.foldl (fun score p => if searchCI p.1 dir_name then score + p.2 else score) init
        = init + ((compiled.filter (fun p => searchCI p.1 dir_name)).map (fun p => p.2)).sum
  | [], init => by simp
  | p :: ps, init => by
    by_cases h : searchCI p.1 dir_name = true
    · rw [List.foldl_cons]
      simp only [h, if_true]
      rw [score_foldl_eq_sum dir_name ps (init + p.2)]
      simp [List.filter_cons, h, add_assoc]
    · rw [List.foldl_cons, if_neg h, score_foldl_eq_sum dir_name ps init,
        List.filter_cons, if_neg h]

theorem deletedDirs_append (a b : List Action) :
    deletedDirs (a ++ b) = deletedDirs a ++ deletedDirs b := by
  simp [deletedDirs, List.filterMap_append]

/-- Under dry-run, a per-member action is a would-delete (delete policy)
or a plain duplicate report — never a removal. -/
theorem memberAction_dry_run (delete : Bool) (deleteOk : String → Bool)
    (d : DirEntry) (sc : Int) :
    memberAction delete true deleteOk d sc
      = if delete then Action.wouldDelete d.name sc else Action.duplicate d.name sc := by
  by_cases h : delete = true
  · simp [memberAction, h]
  · simp [memberAction, h]

theorem process_group_dry_no_delete (delete : Bool) (deleteOk : String → Bool)
    (compiled : List (String × Int)) (group : List DirEntry) :
    deletedDirs (process_group delete true deleteOk compiled group).1 = [] := by
  by_cases h : 1 < group.length
  · obtain ⟨b, l1, l2, hscan, hdec, hlt, hle, heq⟩ :=
      process_group_eq delete true deleteOk compiled group h
    rw [heq]
    rw [deletedDirs, List.filterMap_eq_nil_iff]
    intro a ha
    rcases List.mem_append.mp ha with hm | hr
    · obtain ⟨e, he, rfl⟩ := List.mem_map.mp hm
      rw [memberAction_dry_run]
      by_cases hd : delete = true
      · simp [hd]
      · simp [hd]
    · have har : a = Action.retained b.name (calculate_score b.name compiled) := by
        simpa using hr
      rw [har]
  · simp [process_group, h, deletedDirs]

/-- Filtering and projecting the compiled pairs agrees with filtering and
projecting the rules they came from. -/
theorem filter_map_pairs (dir_name : String) :
    ∀ rules : List ScoreRule,
      ((rules.map (fun r => (r.pattern, r.score))).filter
          (fun p => searchCI p.1 dir_name)).map (fun p => p.2)
        = (rules.filter (fun r => searchCI r.pattern dir_name)).map (fun r => r.score)
  | [] => rfl
  | r :: rs => by
    rw [List.map_cons, List.filter_cons, List.filter_cons]
    by_cases hr : searchCI r.pattern dir_name = true
    · rw [if_pos hr, if_pos hr, List.map_cons, List.map_cons, filter_map_pairs dir_name rs]
    · rw [if_neg hr, if_neg hr, filter_map_pairs dir_name rs]

theorem addToGroup_flat_perm (m : List (String × List DirEntry)) (k : String) (d : DirEntry) :
    (groupsFlat (addToGroup m k d)).Perm (groupsFlat m ++ [d]) := by
  induction m with
  | nil => simp [addToGroup, groupsFlat]
  | cons kg rest ih =>
    rw [addToGroup]
    by_cases hk : kg.1 = k
    · rw [if_pos hk]
      simp only [groupsFlat, List.map_cons, List.flatten_cons]
      rw [List.append_assoc, List.append_assoc]
      exact List.Perm.append_left kg.2 List.perm_append_comm
    · rw [if_neg hk]
      simp only [groupsFlat, List.map_cons, List.flatten_cons]
      rw [List.append_assoc]
      exact List.Perm.append_left kg.2 ih

theorem group_dirs_flat_perm (l : List DirEntry) :
    (groupsFlat (group_dirs l)).Perm l := by
  suffices h : ∀ (l : List DirEntry) (m : List (String × List DirEntry)),
      (groupsFlat (l.foldl (fun m d => addToGroup m (get_canonical_key d) d) m)).Perm
        (groupsFlat m ++ l) by
    simpa [group_dirs, groupsFlat] using h l []
  intro l
  induction l with
  | nil => intro m; simp
  | cons d ds ih =>
    intro m
    rw [List.foldl_cons]
    refine (ih (addToGroup m (get_canonical_key d) d)).trans ?_
    refine (List.Perm.append_right ds (addToGroup_flat_perm m _ d)).trans ?_
    rw [List.append_assoc, List.singleton_append]

theorem addToGroup_keys (m : List (String × List DirEntry)) (k : String) (d : DirEntry) :
    (addToGroup m k d).map (fun kg => kg.1)
      = if k ∈ m.map (fun kg => kg.1) then m.map (fun kg => kg.1)
        else m.map (fun kg => kg.1) ++ [k] := by
  induction m with
  | nil => simp [addToGroup]
  | cons kg rest ih =>
    rw [addToGroup]
    by_cases hk : kg.1 = k
    · rw [if_pos hk]
      simp [hk]
    · rw [if_neg hk]
      simp only [List.map_cons, ih, List.mem_cons]
      by_cases hmem : k ∈ rest.map (fun kg => kg.1)
      · simp [hmem]
      · have hkk : ¬(k = kg.1) := fun hc => hk hc.symm
        simp [hmem, hkk]

theorem addToGroup_keys_nodup (m : List (String × List DirEntry)) (k : String) (d : DirEntry)
    (h : (m.map (fun kg => kg.1)).Nodup) :
    ((addToGroup m k d).map (fun kg => kg.1)).Nodup := by
  rw [addToGroup_keys]
  by_cases hmem : k ∈ m.map (fun kg => kg.1)
  · rwa [if_pos hmem]
  · rw [if_neg hmem]
    refine List.Nodup.append h (List.nodup_singleton k) ?_
    intro a ha hb
    have hak : a = k := by simpa using hb
    subst hak
    exact hmem ha

theorem group_dirs_keys_nodup (l : List DirEntry) :
    ((group_dirs l).map (fun kg => kg.1)).Nodup := by
  suffices h : ∀ (l : List DirEntry) (m : List (String × List DirEntry)),
      (m.map (fun kg => kg.1)).Nodup →
      ((l.foldl (fun m d => addToGroup m (get_canonical_key d) d) m).map
        (fun kg => kg.1)).Nodup by
    exact h l [] (by simp)
  intro l
  induction l with
  | nil =>
    intro m hm
    simpa using hm
  | cons d ds ih =>
    intro m hm
    rw [List.foldl_cons]
    exact ih _ (addToGroup_keys_nodup m _ d hm)

theorem addToGroup_keyed (k : String) (d : DirEntry) (hd : get_canonical_key d = k) :
    ∀ (m : List (String × List DirEntry)),
      (∀ kg ∈ m, ∀ e ∈ kg.2, get_canonical_key e = kg.1) →
      ∀ kg ∈ addToGroup m k d, ∀ e ∈ kg.2, get_canonical_key e = kg.1
  | [], _ => by
    intro kg hkg e he
    have hkgd : kg = (k, [d]) := by simpa [addToGroup] using hkg
    subst hkgd
    have hed : e = d := by simpa using he
    subst hed
    exact hd
  | kg0 :: rest, hm => by
    intro kg hkg e he
    rw [addToGroup] at hkg
    by_cases hk : kg0.1 = k
    · rw [if_pos hk] at hkg
      rcases List.mem_cons.mp hkg with rfl | hrest
      · rcases List.mem_append.mp he with he0 | hed
        · exact hm kg0 (by simp) e he0
        · have hed2 : e = d := by simpa using hed
          subst hed2
          rw [hd]
          exact hk.symm
      · exact hm kg (by simp [hrest]) e he
    · rw [if_neg hk] at hkg
      rcases List.mem_cons.mp hkg with rfl | hrest
      · exact hm kg (by simp) e he
      · exact addToGroup_keyed k d hd rest
          (fun kg2 hkg2 e2 he2 => hm kg2 (by simp [hkg2]) e2 he2) kg hrest e he

theorem group_dirs_keyed (l : List DirEntry) :
    ∀ kg ∈ group_dirs l, ∀ e ∈ kg.2, get_canonical_key e = kg.1 := by
  suffices h : ∀ (l : List DirEntry) (m : List (String × List DirEntry)),
      (∀ kg ∈ m, ∀ e ∈ kg.2, get_canonical_key e = kg.1) →
      ∀ kg ∈ l.foldl (fun m d => addToGroup m (get_canonical_key d) d) m,
        ∀ e ∈ kg.2, get_canonical_key e = kg.1 by
    exact h l [] (by simp)
  intro l
  induction l with
  | nil =>
    intro m hm
    simpa using hm
  | cons d ds ih =>
    intro m hm
    rw [List.foldl_cons]
    exact ih _ (addToGroup_keyed (get_canonical_key d) d rfl m hm)

/-- C8: for every (duplicate-free) list of subdirectories under one root,
the grouping pass partitions the input exactly: the concatenation of all
group member lists is a permutation of the input (no entry dropped, none
duplicated, so the union of the groups is the input set), the group keys
are pairwise distinct, every member carries its group's canonical key, and
distinct groups are pairwise disjoint. -/
theorem c8_grouping_partitions (l : List DirEntry) (hl : l.Nodup) :
    (groupsFlat (group_dirs l)).Perm l ∧
    (groupsFlat (group_dirs l)).Nodup ∧
    ((group_dirs l).map (fun kg => kg.1)).Nodup ∧
    (∀ kg ∈ group_dirs l, ∀ e ∈ kg.2, get_canonical_key e = kg.1) ∧
    List.Pairwise (fun a b => ∀ e, e ∈ a.2 → e ∉ b.2) (group_dirs l) := by
  have hkeyed := group_dirs_keyed l
  refine ⟨group_dirs_flat_perm l, ((group_dirs_flat_perm l).nodup_iff).mpr hl,
    group_dirs_keys_nodup l, hkeyed, ?_⟩
  have hpw : List.Pairwise (fun a b : String × List DirEntry => a.1 ≠ b.1) (group_dirs l) :=
    List.pairwise_map.mp (group_dirs_keys_nodup l)
  refine hpw.imp_of_mem ?_
  intro a b ha hb hne e hea heb
  exact hne (by rw [← hkeyed a ha e hea, ← hkeyed b hb e heb])

/-- C8 witness: the partition theorem applied to a concrete three-element
root listing in which the first two directories share a canonical key. -/
theorem c8_witness :
    ([⟨"A.2020.X", []⟩, ⟨"A (2020) Y", []⟩, ⟨"B", []⟩] : List DirEntry).Nodup ∧
    ((groupsFlat (group_dirs [⟨"A.2020.X", []⟩, ⟨"A (2020) Y", []⟩, ⟨"B", []⟩])).Perm
        [⟨"A.2020.X", []⟩, ⟨"A (2020) Y", []⟩, ⟨"B", []⟩] ∧
      (groupsFlat (group_dirs [⟨"A.2020.X", []⟩, ⟨"A (2020) Y", []⟩, ⟨"B", []⟩])).Nodup ∧
      ((group_dirs [⟨"A.2020.X", []⟩, ⟨"A (2020) Y", []⟩, ⟨"B", []⟩]).map
        (fun kg => kg.1)).Nodup ∧
      (∀ kg ∈ group_dirs [⟨"A.2020.X", []⟩, ⟨"A (2020) Y", []⟩, ⟨"B", []⟩],
        ∀ e ∈ kg.2, get_canonical_key e = kg.1) ∧
      List.Pairwise (fun a b => ∀ e, e ∈ a.2 → e ∉ b.2)
        (group_dirs [⟨"A.2020.X", []⟩, ⟨"A (2020) Y", []⟩, ⟨"B", []⟩])) :=
  ⟨by decide, c8_grouping_partitions [⟨"A.2020.X", []⟩, ⟨"A (2020) Y", []⟩, ⟨"B", []⟩]
    (by decide)⟩

/-- C4: for every directory basename and every rule set whose pattern
strings are pairwise distinct (a set of rules), the scorer returns exactly
the sum of the weights of all rules whose pattern matches the basename
case-insensitively anywhere in the name; every rule is evaluated, so a
name may accumulate multiple positive and negative weights. -/
theorem c4_score_sum_of_matching_weights (dir_name : String) (rules : List ScoreRule)
    (h : (rules.map (fun r => r.pattern)).Nodup) :
    calculate_score dir_name (compile_score_patterns rules)
      = ((rules.filter (fun r => searchCI r.pattern dir_name)).map (fun r => r.score)).sum := by
  rw [calculate_score, compile_score_patterns,
    compile_score_patterns_eq_map rules [] h (by simp), List.nil_append,
    score_foldl_eq_sum, zero_add, filter_map_pairs]

/-- C4 witness: the theorem applied to the BluRay/WEBRip rule set and the
BluRay directory name. -/
theorem c4_witness :
    ((([⟨"BluRay", 10⟩, ⟨"WEBRip", -5⟩] : List ScoreRule).map (fun r => r.pattern)).Nodup) ∧
    calculate_score "Movie.Title.2020.BluRay"
        (compile_score_patterns [⟨"BluRay", 10⟩, ⟨"WEBRip", -5⟩])
      = ((([⟨"BluRay", 10⟩, ⟨"WEBRip", -5⟩] : List ScoreRule).filter
          (fun r => searchCI r.pattern "Movie.Title.2020.BluRay")).map
            (fun r => r.score)).sum :=
  ⟨by decide,
   c4_score_sum_of_matching_weights "Movie.Title.2020.BluRay"
     [⟨"BluRay", 10⟩, ⟨"WEBRip", -5⟩] (by decide)⟩

theorem process_group_dry_delete_counts (deleteOk : String → Bool)
    (compiled : List (String × Int)) (group : List DirEntry) :
    (process_group true true deleteOk compiled group).1.filter isDuplicateAct = [] ∧
    ((process_group true true deleteOk compiled group).1.filter isWouldDelete).length
      = (process_group true true deleteOk compiled group).2 := by
  by_cases h : 1 < group.length
  · obtain ⟨b, l1, l2, hscan, hdec, hlt, hle, heq⟩ :=
      process_group_eq true true deleteOk compiled group h
    rw [heq]
    have hwd : ∀ e : DirEntry, memberAction true true deleteOk e
        (calculate_score e.name compiled)
        = Action.wouldDelete e.name (calculate_score e.name compiled) := by
      intro e
      rw [memberAction_dry_run]
      simp
    constructor
    · rw [List.filter_append]
      have h1 : (((sortByName group).filter (fun d => d ≠ b)).map
          (fun d => memberAction true true deleteOk d (calculate_score d.name compiled))).filter
            isDuplicateAct = [] := by
        rw [List.filter_eq_nil_iff]
        intro a ha
        obtain ⟨e, he, rfl⟩ := List.mem_map.mp ha
        rw [hwd e]
        simp [isDuplicateAct]
      rw [h1, List.nil_append]
      rfl
    · rw [List.filter_append]
      have h2 : (((sortByName group).filter (fun d => d ≠ b)).map
          (fun d => memberAction true true deleteOk d (calculate_score d.name compiled))).filter
            isWouldDelete
          = ((sortByName group).filter (fun d => d ≠ b)).map
              (fun d => memberAction true true deleteOk d (calculate_score d.name compiled)) := by
        apply List.filter_eq_self.mpr
        intro a ha
        obtain ⟨e, he, rfl⟩ := List.mem_map.mp ha
        rw [hwd e]
        rfl
      rw [h2]
      have h3 : ([Action.retained b.name (calculate_score b.name compiled)]).filter
          isWouldDelete = [] := rfl
      rw [h3, List.append_nil, List.length_map]
  · constructor <;> simp [process_group, h]

theorem deletedDirs_flatten_eq_nil (ls : List (List Action))
    (h : ∀ l ∈ ls, deletedDirs l = []) : deletedDirs ls.flatten = [] := by
  induction ls with
  | nil => rfl
  | cons a as ih =>
    rw [List.flatten_cons, deletedDirs_append, h a (by simp), List.nil_append]
    exact ih (fun l hl => h l (by simp [hl]))

theorem filter_flatten_eq_nil (p : Action → Bool) (ls : List (List Action))
    (h : ∀ l ∈ ls, l.filter p = []) : ls.flatten.filter p = [] := by
  induction ls with
  | nil => rfl
  | cons a as ih =>
    rw [List.flatten_cons, List.filter_append, h a (by simp), List.nil_append]
    exact ih (fun l hl => h l (by simp [hl]))

theorem length_filter_flatten_eq_sum (p : Action → Bool)
    (pairs : List (List Action × Nat))
    (h : ∀ x ∈ pairs, (x.1.filter p).length = x.2) :
    ((pairs.map (fun x => x.1)).flatten.filter p).length
      = (pairs.map (fun x => x.2)).sum := by
  induction pairs with
  | nil => rfl
  | cons a as ih =>
    rw [List.map_cons, List.flatten_cons, List.filter_append, List.length_append,
      h a (by simp), List.map_cons, List.sum_cons,
      ih (fun x hx => h x (by simp [hx]))]

theorem process_base_dir_present (delete dryRun : Bool) (deleteOk : String → Bool)
    (compiled : List (String × Int)) (root : RootDir) (hp : root.present = true) :
    process_base_dir delete dryRun deleteOk compiled root
      = ((((sortKeys ((group_dirs root.subdirs).map (fun kg => kg.1))).map
            (fun k => process_group delete dryRun deleteOk compiled
              (lookupGroup (group_dirs root.subdirs) k))).map (fun r => r.1)).flatten,
         root.subdirs.length,
         (((sortKeys ((group_dirs root.subdirs).map (fun kg => kg.1))).map
            (fun k => process_group delete dryRun deleteOk compiled
              (lookupGroup (group_dirs root.subdirs) k))).map (fun r => r.2)).sum) := by
  simp [process_base_dir, hp]

theorem process_base_dir_absent (delete dryRun : Bool) (deleteOk : String → Bool)
    (compiled : List (String × Int)) (root : RootDir) (hp : root.present = false) :
    process_base_dir delete dryRun deleteOk compiled root = ([], 0, 0) := by
  simp [process_base_dir, hp]

theorem process_base_dir_dry_no_delete (delete : Bool) (deleteOk : String → Bool)
    (compiled : List (String × Int)) (root : RootDir) :
    deletedDirs (process_base_dir delete true deleteOk compiled root).1 = [] := by
  by_cases hp : root.present = true
  · rw [process_base_dir_present delete true deleteOk compiled root hp]
    refine deletedDirs_flatten_eq_nil _ ?_
    intro l hl
    obtain ⟨r, hr, rfl⟩ := List.mem_map.mp hl
    obtain ⟨k, hk, rfl⟩ := List.mem_map.mp hr
    exact process_group_dry_no_delete delete deleteOk compiled _
  · rw [process_base_dir_absent delete true deleteOk compiled root (by simpa using hp)]
    rfl

theorem process_base_dir_dry_delete_counts (deleteOk : String → Bool)
    (compiled : List (String × Int)) (root : RootDir) :
    (process_base_dir true true deleteOk compiled root).1.filter isDuplicateAct = [] ∧
    ((process_base_dir true true deleteOk compiled root).1.filter isWouldDelete).length
      = (process_base_dir true true deleteOk compiled root).2.2 := by
  by_cases hp : root.present = true
  · rw [process_base_dir_present true true deleteOk compiled root hp]
    constructor
    · refine filter_flatten_eq_nil _ _ ?_
      intro l hl
      obtain ⟨r, hr, rfl⟩ := List.mem_map.mp hl
      obtain ⟨k, hk, rfl⟩ := List.mem_map.mp hr
      exact (process_group_dry_delete_counts deleteOk compiled _).1
    · refine length_filter_flatten_eq_sum _ _ ?_
      intro x hx
      obtain ⟨k, hk, rfl⟩ := List.mem_map.mp hx
      exact (process_group_dry_delete_counts deleteOk compiled _).2
  · rw [process_base_dir_absent true true deleteOk compiled root (by simpa using hp)]
    exact ⟨rfl, rfl⟩

theorem runAll_acc (delete dryRun : Bool) (deleteOk : String → Bool)
    (compiled : List (String × Int)) :
    ∀ (roots : List RootDir) (acc : List Action × Nat × Nat),
      roots.foldl (runStep delete dryRun deleteOk compiled) acc
      = (acc.1 ++ (runAll delete dryRun deleteOk compiled roots).1,
         acc.2.1 + (runAll delete dryRun deleteOk compiled roots).2.1,
         acc.2.2 + (runAll delete dryRun deleteOk compiled roots).2.2)
  | [], acc => by simp [runAll]
  | r :: rs, acc => by
    rw [List.foldl_cons,
      runAll_acc delete dryRun deleteOk compiled rs
        (runStep delete dryRun deleteOk compiled acc r)]
    conv_rhs => rw [runAll, List.foldl_cons,
      runAll_acc delete dryRun deleteOk compiled rs
        (runStep delete dryRun deleteOk compiled ([], 0, 0) r)]
    simp [runStep, List.append_assoc, Nat.add_assoc]

theorem runAll_cons (delete dryRun : Bool) (deleteOk : String → Bool)
    (compiled : List (String × Int)) (r : RootDir) (rs : List RootDir) :
    runAll delete dryRun deleteOk compiled (r :: rs)
      = ((process_base_dir delete dryRun deleteOk compiled r).1
          ++ (runAll delete dryRun deleteOk compiled rs).1,
         (process_base_dir delete dryRun deleteOk compiled r).2.1
          + (runAll delete dryRun deleteOk compiled rs).2.1,
         (process_base_dir delete dryRun deleteOk compiled r).2.2
          + (runAll delete dryRun deleteOk compiled rs).2.2) := by
  conv_lhs => rw [runAll, List.foldl_cons]
  rw [runAll_acc delete dryRun deleteOk compiled rs
    (runStep delete dryRun deleteOk compiled ([], 0, 0) r)]
  simp [runStep]

/-- C2: with the dry-run flag set (any delete flag), a run deletes
nothing, so the directory set on disk is identical before and after; and
with both delete and dry-run set, the emitted observations contain no
plain `duplicate` report, while the number of `would delete` observations
equals the run's duplicates counter — one per non-survivor. -/
theorem c2_dry_run_frame (delete : Bool) (deleteOk : String → Bool)
    (compiled : List (String × Int)) (roots : List RootDir) (fs : List String) :
    deletedDirs (runAll delete true deleteOk compiled roots).1 = [] ∧
    applyDeletions fs (runAll delete true deleteOk compiled roots).1 = fs ∧
    (runAll true true deleteOk compiled roots).1.filter isDuplicateAct = [] ∧
    ((runAll true true deleteOk compiled roots).1.filter isWouldDelete).length
      = (runAll true true deleteOk compiled roots).2.2 := by
  have hdel : ∀ (dl : Bool) (rts : List RootDir),
      deletedDirs (runAll dl true deleteOk compiled rts).1 = [] := by
    intro dl rts
    induction rts with
    | nil => rfl
    | cons x xs ih =>
      rw [runAll_cons, deletedDirs_append,
        process_base_dir_dry_no_delete dl deleteOk compiled x, List.nil_append]
      exact ih
  have hcnt : ∀ rts : List RootDir,
      (runAll true true deleteOk compiled rts).1.filter isDuplicateAct = [] ∧
      ((runAll true true deleteOk compiled rts).1.filter isWouldDelete).length
        = (runAll true true deleteOk compiled rts).2.2 := by
    intro rts
    induction rts with
    | nil => exact ⟨rfl, rfl⟩
    | cons x xs ih =>
      obtain ⟨g1, g2⟩ := process_base_dir_dry_delete_counts deleteOk compiled x
      constructor
      · rw [runAll_cons]
        simp only [List.filter_append, ih.1, g1, List.append_nil]
      · rw [runAll_cons]
        simp only [List.filter_append, List.length_append, ih.2, g2]
  refine ⟨hdel delete roots, ?_, (hcnt roots).1, (hcnt roots).2⟩
  rw [applyDeletions, hdel delete roots]
  simp

/-- C7: a configured root that does not exist yields the result
`([], 0, 0)` — zero processed, zero duplicates, no observation; the
aggregate counters of a run are exactly the sums of the per-root results;
and a missing root at the head of the list leaves the processing of every
remaining root (and the totals they contribute) unchanged. -/
theorem c7_missing_root_contributes_zero (delete dryRun : Bool)
    (deleteOk : String → Bool) (compiled : List (String × Int)) :
    (∀ root : RootDir, root.present = false →
      process_base_dir delete dryRun deleteOk compiled root = ([], 0, 0)) ∧
    (∀ roots : List RootDir,
      (runAll delete dryRun deleteOk compiled roots).2.1
        = (roots.map (fun r =>
            (process_base_dir delete dryRun deleteOk compiled r).2.1)).sum ∧
      (runAll delete dryRun deleteOk compiled roots).2.2
        = (roots.map (fun r =>
            (process_base_dir delete dryRun deleteOk compiled r).2.2)).sum) ∧
    (∀ (root : RootDir) (rest : List RootDir), root.present = false →
      runAll delete dryRun deleteOk compiled (root :: rest)
        = runAll delete dryRun deleteOk compiled rest) := by
  have habsent : ∀ root : RootDir, root.present = false →
      process_base_dir delete dryRun deleteOk compiled root = ([], 0, 0) :=
    fun root hp => process_base_dir_absent delete dryRun deleteOk compiled root hp
  refine ⟨habsent, ?_, ?_⟩
  · intro roots
    induction roots with
    | nil => exact ⟨rfl, rfl⟩
    | cons x xs ih =>
      constructor
      · rw [runAll_cons, List.map_cons, List.sum_cons]
        simp only [ih.1]
      · rw [runAll_cons, List.map_cons, List.sum_cons]
        simp only [ih.2]
  · intro root rest hp
    rw [runAll_cons, habsent root hp]
    simp

/-- C7 witness: a missing root next to an existing root with two
subdirectories sharing a key: the missing root yields `([], 0, 0)`, the
totals are the per-root sums, and dropping the missing root changes
nothing. -/
theorem c7_witness :
    process_base_dir false false (fun _ => true) []
      ⟨false, [⟨"x", []⟩]⟩ = ([], 0, 0) ∧
    ((runAll false false (fun _ => true) [] [⟨false, [⟨"x", []⟩]⟩, ⟨true, [⟨"x", []⟩]⟩]).2.1
      = (([⟨false, [⟨"x", []⟩]⟩, ⟨true, [⟨"x", []⟩]⟩] : List RootDir).map (fun r =>
          (process_base_dir false false (fun _ => true) [] r).2.1)).sum ∧
     (runAll false false (fun _ => true) [] [⟨false, [⟨"x", []⟩]⟩, ⟨true, [⟨"x", []⟩]⟩]).2.2
      = (([⟨false, [⟨"x", []⟩]⟩, ⟨true, [⟨"x", []⟩]⟩] : List RootDir).map (fun r =>
          (process_base_dir false false (fun _ => true) [] r).2.2)).sum) ∧
    runAll false false (fun _ => true) [] (⟨false, [⟨"x", []⟩]⟩ :: [⟨true, [⟨"x", []⟩]⟩])
      = runAll false false (fun _ => true) [] [⟨true, [⟨"x", []⟩]⟩] :=
  ⟨(c7_missing_root_contributes_zero false false (fun _ => true) []).1
      ⟨false, [⟨"x", []⟩]⟩ rfl,
   (c7_missing_root_contributes_zero false false (fun _ => true) []).2.1
      [⟨false, [⟨"x", []⟩]⟩, ⟨true, [⟨"x", []⟩]⟩],
   (c7_missing_root_contributes_zero false false (fun _ => true) []).2.2
      ⟨false, [⟨"x", []⟩]⟩ [⟨true, [⟨"x", []⟩]⟩] rfl⟩

end DD
